import Mathlib

/-!
Verification of the movie-review analysis pipeline
(notebook `analysis.ipynb`: scraping, cleaning, tokenization,
sentiment scoring, correlation).

The Python code is shallowly embedded: pandas tables become lists of
records, strings become `String`/`List Char`, Python floats become `ℚ`
(exact parsing) or `ℝ` (analysis), `None`/`NaN` becomes `Option`.
-/

/-! ## Character-level text model

Python string operations used by the notebook, modelled per character.
The notebook processes Russian text, so lowercasing and the regex
word-character class cover ASCII and the Cyrillic block U+0400–U+04FF
(the alphabets actually reachable in this pipeline).
-/

/-- The uppercase-to-lowercase table of Python `str.lower` for the
ASCII letters and the Cyrillic capitals `А`–`Я` and `Ё`. -/
def lowerPairs : List (Char × Char) :=
  [('A', 'a'), ('B', 'b'), ('C', 'c'), ('D', 'd'), ('E', 'e'), ('F', 'f'),
   ('G', 'g'), ('H', 'h'), ('I', 'i'), ('J', 'j'), ('K', 'k'), ('L', 'l'),
   ('M', 'm'), ('N', 'n'), ('O', 'o'), ('P', 'p'), ('Q', 'q'), ('R', 'r'),
   ('S', 's'), ('T', 't'), ('U', 'u'), ('V', 'v'), ('W', 'w'), ('X', 'x'),
   ('Y', 'y'), ('Z', 'z'),
   ('А', 'а'), ('Б', 'б'), ('В', 'в'), ('Г', 'г'), ('Д', 'д'), ('Е', 'е'),
   ('Ж', 'ж'), ('З', 'з'), ('И', 'и'), ('Й', 'й'), ('К', 'к'), ('Л', 'л'),
   ('М', 'м'), ('Н', 'н'), ('О', 'о'), ('П', 'п'), ('Р', 'р'), ('С', 'с'),
   ('Т', 'т'), ('У', 'у'), ('Ф', 'ф'), ('Х', 'х'), ('Ц', 'ц'), ('Ч', 'ч'),
   ('Ш', 'ш'), ('Щ', 'щ'), ('Ъ', 'ъ'), ('Ы', 'ы'), ('Ь', 'ь'), ('Э', 'э'),
   ('Ю', 'ю'), ('Я', 'я'), ('Ё', 'ё')]

/-- Model of Python `str.lower` on one character, for the alphabets
reachable in this pipeline: letters in `lowerPairs` map to their
lowercase forms; everything else is unchanged. -/
def charLower (c : Char) : Char :=
  match lowerPairs.find? (fun p => p.1 == c) with
  | some p => p.2
  | none => c

/-- Model of the regex class `\w` under `re.U` for the alphabets reachable
here: ASCII letters and digits, underscore, and Cyrillic letters. -/
def isWordChar (c : Char) : Bool :=
  c.isAlphanum || c = '_' || (0x400 ≤ c.toNat && c.toNat ≤ 0x4FF)

/-- One step of `punct_pattern.sub(" ", text)` with
`punct_pattern = re.compile(r"[^\w\s]")`: a character that is neither a
word character nor whitespace becomes a single space. -/
def punctChar (c : Char) : Char :=
  if !isWordChar c && !c.isWhitespace then ' ' else c

/-- Model of `re.sub(r"\d+", " ", text)`: each maximal run of digits is
replaced by one space.  The flag records whether the previous character
was part of a digit run. -/
def digitSubAux : Bool → List Char → List Char
  | _, [] => []
  | prev, c :: cs =>
    if c.isDigit then
      if prev then digitSubAux true cs else ' ' :: digitSubAux true cs
    else c :: digitSubAux false cs

def digitSub (l : List Char) : List Char := digitSubAux false l

/-- Whitespace tokenization, the behaviour of `word_tokenize` on its
input at the call site in `preprocess_text` (by that point the text
contains only word characters and whitespace, so the tokenizer reduces
to splitting on whitespace).  `acc` is the token being accumulated. -/
def tokensAux (acc : List Char) : List Char → List (List Char)
  | [] => if acc = [] then [] else [acc]
  | c :: cs =>
    if c.isWhitespace then
      if acc = [] then tokensAux [] cs else acc :: tokensAux [] cs
    else tokensAux (acc ++ [c]) cs

def tokensL (l : List Char) : List (List Char) := tokensAux [] l

/-- Model of `" ".join(tokens)`. -/
def joinSp : List (List Char) → List Char
  | [] => []
  | [t] => t
  | t :: ts => t ++ ' ' :: joinSp ts

/-- Model of Python `str.strip`: drop leading and trailing whitespace. -/
def stripL (l : List Char) : List Char :=
  ((l.dropWhile Char.isWhitespace).reverse.dropWhile Char.isWhitespace).reverse

def stripStr (s : String) : String := String.mk (stripL s.toList)

/-! ## Tokenizer (`preprocess_text`) -/

/-- The NLTK Russian stopword list, the value of
`set(stopwords.words("russian"))` in the notebook. -/
def russianStopwords : List String :=
  ["и", "в", "во", "не", "что", "он", "на", "я", "с", "со", "как", "а",
   "то", "все", "она", "так", "его", "но", "да", "ты", "к", "у", "же",
   "вы", "за", "бы", "по", "только", "ее", "мне", "было", "вот", "от",
   "меня", "еще", "нет", "о", "из", "ему", "теперь", "когда", "даже",
   "ну", "вдруг", "ли", "если", "уже", "или", "ни", "быть", "был",
   "него", "до", "вас", "нибудь", "опять", "уж", "вам", "ведь", "там",
   "потом", "себя", "ничего", "ей", "может", "они", "тут", "где",
   "есть", "надо", "ней", "для", "мы", "тебя", "их", "чем", "была",
   "сам", "чтоб", "без", "будто", "чего", "раз", "тоже", "себе", "под",
   "будет", "ж", "тогда", "кто", "этот", "того", "потому", "этого",
   "какой", "совсем", "ним", "здесь", "этом", "один", "почти", "мой",
   "тем", "чтобы", "нее", "сейчас", "были", "куда", "зачем", "всех",
   "никогда", "можно", "при", "наконец", "два", "об", "другой", "хоть",
   "после", "над", "больше", "тот", "через", "эти", "нас", "про",
   "всего", "них", "какая", "много", "разве", "три", "эту", "моя",
   "впрочем", "хорошо", "свою", "этой", "перед", "иногда", "лучше",
   "чуть", "том", "нельзя", "такой", "им", "более", "всегда", "конечно",
   "всю", "между"]

def russianStopL : List (List Char) := russianStopwords.map String.toList

/-- The token filter of step 5 of `preprocess_text`:
`tok not in russian_stop and len(tok) > 2`. -/
def keepTok (t : List Char) : Bool :=
  !russianStopL.contains t && t.length > 2

/-- `preprocess_text` on a character list: lowercase, replace
punctuation by spaces, replace digit runs by spaces, tokenize, drop
stopwords and tokens of length < 3, join with single spaces. -/
def preprocessL (l : List Char) : List Char :=
  joinSp ((tokensL (digitSub ((l.map charLower).map punctChar))).filter keepTok)

/-- The notebook's `preprocess_text` function. -/
def preprocess_text (s : String) : String := String.mk (preprocessL s.toList)

/-- Tokens of a string: whitespace tokenization (used to state what
"the tokens of `clean_text`" are). -/
def tokenize (s : String) : List String := (tokensL s.toList).map String.mk

/-! ## Cleaning stage -/

/-- A simple calendar date, the result of a successful
`datetime.strptime(date_str, "%d.%m.%Y")`. -/
structure Date where
  day : Nat
  month : Nat
  year : Nat
deriving DecidableEq, Repr

/-- A row of the review table.  `Option` encodes pandas missing values
(`None`/`NaN`).  Ratings are exact rationals, the values Python floats
take on the inputs parsed here. -/
structure Row where
  movie_id : String
  review_text : Option String
  rating : Option ℚ
  review_date : Option Date
  author : String
deriving DecidableEq, Repr

/-- The deduplication key of `df.drop_duplicates(subset=["review_text", "author"])`. -/
def dedupKey (r : Row) : Option String × String := (r.review_text, r.author)

/-- `drop_duplicates(subset=["review_text", "author"])` with pandas
default `keep="first"`: keep a row iff its key has not been seen in an
earlier row.  pandas treats two `NaN` keys as duplicates of each other,
hence plain equality on `Option String`. -/
def dropDupAux (seen : List (Option String × String)) : List Row → List Row
  | [] => []
  | r :: rs =>
    if seen.contains (dedupKey r) then dropDupAux seen rs
    else r :: dropDupAux (dedupKey r :: seen) rs

def dropDuplicates (t : List Row) : List Row := dropDupAux [] t

/-- The blank test of the filter
`df["review_text"].notna() & (df["review_text"].str.strip() != "")`,
negated: a text is blank when it is missing or strips to the empty
string (i.e. is all whitespace). -/
def isBlankText : Option String → Bool
  | none => true
  | some s => s.toList.all Char.isWhitespace

/-- The cleaning cell: deduplicate on `(review_text, author)`, then drop
rows with blank `review_text`. -/
def clean (t : List Row) : List Row :=
  (dropDuplicates t).filter (fun r => !isBlankText r.review_text)

/-! ## Collector (`scrape_reviews_for_movie`)

A review block models one `<div class="reviewItem">`: the stripped text
content of each selector, or `none` when the selector finds nothing.
HTTP and HTML parsing are outside the embedding; a movie's review
listing is a function from page number to the blocks found there.
-/

structure ReviewBlock where
  textEl : Option String
  ratingEl : Option String
  dateEl : Option String
  authorEl : Option String
deriving DecidableEq, Repr

/-- Digits to a natural number, most significant first. -/
def digitsToNat (cs : List Char) : Nat :=
  cs.foldl (fun n c => 10 * n + (c.toNat - '0'.toNat)) 0

/-- Split a character list on a separator character, keeping empty
pieces, like Python `str.split(sep)`. -/
def splitChAux (sep : Char) (acc : List Char) : List Char → List (List Char)
  | [] => [acc]
  | c :: cs =>
    if c = sep then acc :: splitChAux sep [] cs
    else splitChAux sep (acc ++ [c]) cs

def splitCh (sep : Char) (l : List Char) : List (List Char) :=
  splitChAux sep [] l

/-- Model of Python `float(s)` on the decimal literals that occur here:
optional sign, digits, optional fractional part; `none` when the text
is not such a literal (the notebook turns the `ValueError` into `None`
via `try`/`except`). -/
def parseFloat (s : String) : Option ℚ :=
  let cs := s.toList
  let neg : Bool := match cs with | '-' :: _ => true | _ => false
  let body : List Char :=
    match cs with
    | '-' :: r => r
    | '+' :: r => r
    | r => r
  let mag : Option ℚ :=
    match splitCh '.' body with
    | [ip] =>
        if ip ≠ [] ∧ ip.all Char.isDigit then some (digitsToNat ip : ℚ) else none
    | [ip, fp] =>
        if (ip ++ fp) ≠ [] ∧ ip.all Char.isDigit ∧ fp.all Char.isDigit then
          some ((digitsToNat (ip ++ fp) : ℚ) / (10 ^ fp.length))
        else none
    | _ => none
  mag.map (fun v => if neg then -v else v)

def isLeapYear (y : Nat) : Bool :=
  y % 4 = 0 && (y % 100 ≠ 0 || y % 400 = 0)

def daysInMonth (m y : Nat) : Nat :=
  if m = 2 then (if isLeapYear y then 29 else 28)
  else if m = 4 ∨ m = 6 ∨ m = 9 ∨ m = 11 then 30
  else 31

/-- Model of `datetime.strptime(date_str, "%d.%m.%Y")`: one or two
digits for day and month, exactly four for the year, dots in between,
and the day must exist in that month; otherwise `none` (the notebook
turns the `ValueError` into `None` via `try`/`except`). -/
def parseDate (s : String) : Option Date :=
  match splitCh '.' s.toList with
  | [d, m, y] =>
      if d.all Char.isDigit ∧ m.all Char.isDigit ∧ y.all Char.isDigit ∧
         1 ≤ d.length ∧ d.length ≤ 2 ∧ 1 ≤ m.length ∧ m.length ≤ 2 ∧
         y.length = 4 then
        let dv := digitsToNat d
        let mv := digitsToNat m
        let yv := digitsToNat y
        if 1 ≤ mv ∧ mv ≤ 12 ∧ 1 ≤ dv ∧ dv ≤ daysInMonth mv yv then
          some ⟨dv, mv, yv⟩
        else none
      else none
  | _ => none

/-- The per-block body of the scraping loop: build one review row.
Missing selectors give `""` for text and author and `None` for the
rating, exactly as in the notebook; unparsable rating or date text
gives `None`. -/
def extractReview (movieId : String) (b : ReviewBlock) : Row :=
  { movie_id := movieId
    review_text := some ((b.textEl.map stripStr).getD "")
    rating := b.ratingEl.bind (fun t => parseFloat (stripStr t))
    review_date := parseDate ((b.dateEl.map stripStr).getD "")
    author := (b.authorEl.map stripStr).getD "" }

/-- Model of `movie_url.rstrip("/").split("/")[-1]`. -/
def movieIdOf (url : String) : String :=
  String.mk (((splitCh '/' ((url.toList.reverse.dropWhile (· = '/')).reverse)).getLastD []))

/-- The page loop of `scrape_reviews_for_movie`, instrumented with the
number of pages fetched.  `fuel` is the number of loop iterations left
and `pageNum` the next page to fetch; a page with no review blocks is
fetched, then the loop breaks. -/
def scrapeAux (movieId : String) (pages : Nat → List ReviewBlock) :
    Nat → Nat → List Row × Nat
  | 0, _ => ([], 0)
  | fuel + 1, pageNum =>
    let blocks := pages pageNum
    if blocks = [] then ([], 1)
    else
      let rest := scrapeAux movieId pages fuel (pageNum + 1)
      (blocks.map (extractReview movieId) ++ rest.1, rest.2 + 1)

/-- `scrape_reviews_for_movie(movie_url, max_pages)`: the list of review
rows it returns. -/
def scrape_reviews_for_movie (url : String) (pages : Nat → List ReviewBlock)
    (maxPages : Nat) : List Row :=
  (scrapeAux (movieIdOf url) pages maxPages 1).1

/-- The number of review-listing pages `scrape_reviews_for_movie`
fetches. -/
def pagesFetched (url : String) (pages : Nat → List ReviewBlock)
    (maxPages : Nat) : Nat :=
  (scrapeAux (movieIdOf url) pages maxPages 1).2

/-! ## Sentiment (`get_sentiment_score`)

Modelled from the spec: the "lexicon-based polarity estimator" is
NLTK VADER, whose library code is not part of this repository.  Its
compound score sums per-token valences and normalizes the sum `x` to
`x / sqrt(x^2 + 15)`.  The lexicon itself is a parameter `valence`.
-/

/-- Modelled from the spec: VADER's score normalization
`x / sqrt(x^2 + alpha)` with `alpha = 15`. -/
noncomputable def vaderNormalize (x : ℝ) : ℝ :=
  x / Real.sqrt (x ^ 2 + 15)

/-- Modelled from the spec: the compound polarity of a text, the sum of
token valences, normalized. -/
noncomputable def vaderCompound (valence : String → ℝ) (s : String) : ℝ :=
  vaderNormalize (((tokensL s.toList).map (fun t => valence (String.mk t))).sum)

/-- The notebook's `get_sentiment_score`: `None` on falsy or
whitespace-only input, otherwise the compound score.  For a string `s`,
`not s or s.strip() == ""` holds exactly when every character of `s` is
whitespace. -/
noncomputable def get_sentiment_score (valence : String → ℝ) :
    Option String → Option ℝ
  | none => none
  | some s =>
      if s.toList.all Char.isWhitespace then none
      else some (vaderCompound valence s)

/-! ## Correlation -/

/-- Mean of a list of reals (pandas denominator `n`). -/
noncomputable def listMean (l : List ℝ) : ℝ := l.sum / l.length

noncomputable def meanFst (ps : List (ℝ × ℝ)) : ℝ := listMean (ps.map Prod.fst)

noncomputable def meanSnd (ps : List (ℝ × ℝ)) : ℝ := listMean (ps.map Prod.snd)

/-- Centered cross products, `sum((x - mx) * (y - my))`. -/
noncomputable def sxy (ps : List (ℝ × ℝ)) : ℝ :=
  (ps.map (fun p => (p.1 - meanFst ps) * (p.2 - meanSnd ps))).sum

/-- Centered sum of squares of the first column. -/
noncomputable def sxx (ps : List (ℝ × ℝ)) : ℝ :=
  (ps.map (fun p => (p.1 - meanFst ps) ^ 2)).sum

/-- Centered sum of squares of the second column. -/
noncomputable def syy (ps : List (ℝ × ℝ)) : ℝ :=
  (ps.map (fun p => (p.2 - meanSnd ps) ^ 2)).sum

/-- Pearson correlation of a list of pairs:
`sum((x-mx)(y-my)) / sqrt(sum((x-mx)^2) * sum((y-my)^2))`, the value
`df_corr["rating"].corr(df_corr["sentiment_score"])` computes. -/
noncomputable def pearson (ps : List (ℝ × ℝ)) : ℝ :=
  sxy ps / Real.sqrt (sxx ps * syy ps)

/-- `corr_value`: drop rows where either column is missing
(`df.dropna(subset=["rating", "sentiment_score"])`), then Pearson. -/
noncomputable def corrValue (rows : List (Option ℝ × Option ℝ)) : ℝ :=
  pearson (rows.filterMap (fun p =>
    match p with
    | (some a, some b) => some (a, b)
    | _ => none))

/-! ## Cleaning-stage lemmas -/

lemma mem_dropDupAux {seen : List (Option String × String)} {t : List Row} {s : Row}
    (h : s ∈ dropDupAux seen t) : s ∈ t ∧ dedupKey s ∉ seen := by
  induction t generalizing seen with
  | nil => simp [dropDupAux] at h
  | cons r rs ih =>
    by_cases hc : dedupKey r ∈ seen
    · rw [dropDupAux, if_pos (by simpa using hc)] at h
      rcases ih h with ⟨h1, h2⟩
      exact ⟨List.mem_cons_of_mem _ h1, h2⟩
    · rw [dropDupAux, if_neg (by simpa using hc)] at h
      rcases List.mem_cons.mp h with h | h
      · subst h
        exact ⟨List.mem_cons_self _ _, hc⟩
      · rcases ih h with ⟨h1, h2⟩
        refine ⟨List.mem_cons_of_mem _ h1, fun hm => h2 (List.mem_cons_of_mem _ hm)⟩

lemma countP_dropDupAux_seen {seen : List (Option String × String)} {t : List Row}
    {k : Option String × String} (hk : k ∈ seen) :
    (dropDupAux seen t).countP (fun s => decide (dedupKey s = k)) = 0 := by
  induction t generalizing seen with
  | nil => simp [dropDupAux]
  | cons r rs ih =>
    by_cases hc : dedupKey r ∈ seen
    · rw [dropDupAux, if_pos (by simpa using hc)]
      exact ih hk
    · have hne : dedupKey r ≠ k := fun h => hc (h ▸ hk)
      rw [dropDupAux, if_neg (by simpa using hc),
        List.countP_cons_of_neg _ _ (by simpa using hne)]
      exact ih (List.mem_cons_of_mem _ hk)

lemma countP_dropDupAux_not_seen {seen : List (Option String × String)} {t : List Row}
    {k : Option String × String} (hk : k ∉ seen) (he : ∃ r ∈ t, dedupKey r = k) :
    (dropDupAux seen t).countP (fun s => decide (dedupKey s = k)) = 1 := by
  induction t generalizing seen with
  | nil => simp at he
  | cons r rs ih =>
    by_cases hr : dedupKey r = k
    · subst hr
      rw [dropDupAux, if_neg (by simpa using hk),
        List.countP_cons_of_pos _ _ (by simp),
        countP_dropDupAux_seen (List.mem_cons_self _ _)]
    · have he' : ∃ s ∈ rs, dedupKey s = k := by
        rcases he with ⟨s, hs, hks⟩
        rcases List.mem_cons.mp hs with hs | hs
        · exact absurd (hs ▸ hks) hr
        · exact ⟨s, hs, hks⟩
      by_cases hc : dedupKey r ∈ seen
      · rw [dropDupAux, if_pos (by simpa using hc)]
        exact ih hk he'
      · rw [dropDupAux, if_neg (by simpa using hc),
          List.countP_cons_of_neg _ _ (by simpa using hr)]
        exact ih (by simp [hk, Ne.symm hr]) he'

lemma pairwise_dropDupAux (seen : List (Option String × String)) (t : List Row) :
    (dropDupAux seen t).Pairwise (fun a b => dedupKey a ≠ dedupKey b) := by
  induction t generalizing seen with
  | nil => simp [dropDupAux]
  | cons r rs ih =>
    by_cases hc : dedupKey r ∈ seen
    · rw [dropDupAux, if_pos (by simpa using hc)]
      exact ih seen
    · rw [dropDupAux, if_neg (by simpa using hc)]
      refine List.Pairwise.cons ?_ (ih _)
      intro s hs
      exact fun h => (mem_dropDupAux hs).2 (by simp [← h])

/-- Fixture rows for concrete checks: a valid review, an exact
duplicate of it (same text and author), and a blank-text review. -/
def fixtureValid : Row :=
  ⟨"m1", some "Отличный фильм", some 8, none, "alice"⟩

def fixtureDup : Row :=
  ⟨"m1", some "Отличный фильм", some 7, none, "alice"⟩

def fixtureBlank : Row :=
  ⟨"m2", some "   ", none, none, "bob"⟩

/-- C1 (amended).  After cleaning, no two rows share a
`(review_text, author)` pair, and a key that appears in the input with
non-blank text survives in exactly one row.  (Blank-text duplicates are
removed entirely by the empty-text filter, so "exactly one" holds only
for non-blank keys.) -/
theorem clean_dedup_unique (t : List Row) (r : Row) (h1 : r ∈ t)
    (h2 : isBlankText r.review_text = false) :
    (clean t).countP (fun s => decide (dedupKey s = dedupKey r)) = 1 ∧
    (clean t).Pairwise (fun a b => dedupKey a ≠ dedupKey b) := by
  constructor
  · have hdd : (dropDuplicates t).countP
        (fun s => decide (dedupKey s = dedupKey r)) = 1 :=
      countP_dropDupAux_not_seen (by simp) ⟨r, h1, rfl⟩
    rw [clean, List.countP_filter]
    rw [← hdd]
    apply List.countP_congr
    intro s _
    by_cases hk : dedupKey s = dedupKey r
    · have htext : s.review_text = r.review_text := congrArg Prod.fst hk
      simp [hk, htext, h2]
    · simp [hk]
  · exact (pairwise_dropDupAux [] t).sublist (List.filter_sublist _)

/-- Witness for C1: on a table of two rows sharing a non-blank
`(review_text, author)` pair, exactly one survives cleaning. -/
theorem clean_dedup_unique_witness :
    (clean [fixtureValid, fixtureDup]).countP
      (fun s => decide (dedupKey s = dedupKey fixtureValid)) = 1 ∧
    (clean [fixtureValid, fixtureDup]).Pairwise
      (fun a b => dedupKey a ≠ dedupKey b) :=
  clean_dedup_unique [fixtureValid, fixtureDup] fixtureValid
    (by decide) (by decide)

def blankDupA : Row := ⟨"m1", some "", none, none, "carol"⟩

def blankDupB : Row := ⟨"m2", some "", none, none, "carol"⟩

/-- Counterexample to C1 as stated: two distinct rows with identical
`(review_text, author)` whose text is blank — the cleaned table retains
zero of them, not exactly one (deduplication runs before the blank-text
filter, which then removes the surviving copy). -/
theorem clean_dedup_counterexample :
    blankDupA ≠ blankDupB ∧ dedupKey blankDupA = dedupKey blankDupB ∧
    (clean [blankDupA, blankDupB]).countP
      (fun s => decide (dedupKey s = dedupKey blankDupA)) = 0 := by
  decide

/-- C2.  Cleaning removes every row with missing or whitespace-only
`review_text`; the blank-text filter removes nothing else (every
deduplicated row with non-blank text survives); and on the three-row
fixture (one valid, one duplicate, one blank) exactly one row remains. -/
theorem clean_empty_text_filter (t : List Row) :
    (∀ r ∈ clean t, isBlankText r.review_text = false) ∧
    (∀ r ∈ dropDuplicates t, isBlankText r.review_text = false → r ∈ clean t) ∧
    clean [fixtureValid, fixtureDup, fixtureBlank] = [fixtureValid] := by
  refine ⟨?_, ?_, by decide⟩
  · intro r hr
    have := List.of_mem_filter hr
    simpa using this
  · intro r hr hb
    exact List.mem_filter.mpr ⟨hr, by simp [hb]⟩

/-- Witness for C2 at the fixture: the blank row is gone, the valid row
(non-blank, present after deduplication) is retained. -/
theorem clean_empty_text_filter_witness :
    isBlankText fixtureValid.review_text = false ∧
    fixtureValid ∈ clean [fixtureValid, fixtureDup, fixtureBlank] := by
  constructor
  · exact (clean_empty_text_filter [fixtureValid, fixtureDup, fixtureBlank]).1
      fixtureValid (by decide)
  · exact (clean_empty_text_filter [fixtureValid, fixtureDup, fixtureBlank]).2.1
      fixtureValid (by decide) (by decide)

/-! ## Collector lemmas -/

lemma scrapeAux_spec (mid : String) (pages : Nat → List ReviewBlock) :
    ∀ (fuel start : Nat),
      scrapeAux mid pages fuel start =
        (((((List.range' start fuel).map pages).takeWhile
            (fun bs => !bs.isEmpty)).map
              (fun bs => bs.map (extractReview mid))).flatten,
         min fuel ((((List.range' start fuel).map pages).takeWhile
            (fun bs => !bs.isEmpty)).length + 1))
  | 0, start => by simp [scrapeAux]
  | fuel + 1, start => by
    rw [List.range'_succ, List.map_cons]
    by_cases hb : pages start = []
    · rw [scrapeAux, if_pos hb]
      rw [List.takeWhile_cons_of_neg (by simp [hb])]
      simp
    · rw [scrapeAux, if_neg hb]
      rw [List.takeWhile_cons_of_pos (by simp [hb])]
      rw [scrapeAux_spec mid pages fuel (start + 1)]
      simp [Nat.succ_min_succ]

/-- C8.  The scraping loop fetches at most `max_pages` review-listing
pages; it stops at the first page with zero review blocks (that page is
fetched, contributes nothing, and causes no error); and the returned
rows are exactly those extracted, in order, from the non-empty prefix
of pages. -/
theorem scrape_page_cap_early_stop (url : String)
    (pages : Nat → List ReviewBlock) (maxPages : Nat) :
    pagesFetched url pages maxPages ≤ maxPages ∧
    pagesFetched url pages maxPages =
      min maxPages ((((List.range' 1 maxPages).map pages).takeWhile
        (fun bs => !bs.isEmpty)).length + 1) ∧
    scrape_reviews_for_movie url pages maxPages =
      ((((List.range' 1 maxPages).map pages).takeWhile
        (fun bs => !bs.isEmpty)).map
          (fun bs => bs.map (extractReview (movieIdOf url)))).flatten := by
  refine ⟨?_, ?_, ?_⟩
  · rw [pagesFetched, scrapeAux_spec]
    exact Nat.min_le_left _ _
  · rw [pagesFetched, scrapeAux_spec]
  · rw [scrape_reviews_for_movie, scrapeAux_spec]

/-- A listing with one page of one review block, then no more. -/
def onePageListing (b : ReviewBlock) : Nat → List ReviewBlock :=
  fun n => if n = 1 then [b] else []

/-- A concrete review block whose rating text parses to 11. -/
def overratedBlock : ReviewBlock :=
  ⟨some "Шедевр!", some "11", some "01.01.2023", some "dave"⟩

/-- Witness for C8: on a listing whose first page has one block and
whose second page is empty, the loop fetches 2 of the allowed 3 pages
and returns exactly the one extracted row. -/
theorem scrape_page_cap_early_stop_witness :
    pagesFetched "https://x/film/123/" (onePageListing overratedBlock) 3 ≤ 3 ∧
    pagesFetched "https://x/film/123/" (onePageListing overratedBlock) 3 =
      min 3 ((((List.range' 1 3).map (onePageListing overratedBlock)).takeWhile
        (fun bs => !bs.isEmpty)).length + 1) ∧
    scrape_reviews_for_movie "https://x/film/123/"
        (onePageListing overratedBlock) 3 =
      ((((List.range' 1 3).map (onePageListing overratedBlock)).takeWhile
        (fun bs => !bs.isEmpty)).map
          (fun bs => bs.map (extractReview
            (movieIdOf "https://x/film/123/")))).flatten :=
  scrape_page_cap_early_stop "https://x/film/123/" (onePageListing overratedBlock) 3

/-- C9.  Malformed fields degrade independently instead of aborting:
whenever the rating text does not parse as a float the row's rating is
`None`, whenever the date text does not match `%d.%m.%Y` the row's date
is `None` — each field on its own, regardless of the other — and the
row itself is always produced: every block of a fetched page yields
exactly one appended row, with no exception escaping (extraction is a
total function). -/
theorem collector_malformed_fields_degrade (mid : String) (b : ReviewBlock)
    (blocks : List ReviewBlock) (hb : b ∈ blocks) :
    (∀ t, b.ratingEl = some t → parseFloat (stripStr t) = none →
      (extractReview mid b).rating = none) ∧
    (parseDate ((b.dateEl.map stripStr).getD "") = none →
      (extractReview mid b).review_date = none) ∧
    extractReview mid b ∈ blocks.map (extractReview mid) := by
  refine ⟨?_, ?_, List.mem_map_of_mem _ hb⟩
  · intro t ht hrp
    simp [extractReview, ht, hrp]
  · intro hdp
    simp [extractReview, hdp]

/-- A concrete review block whose rating text is malformed but whose
date text is well-formed. -/
def malformedBlock : ReviewBlock :=
  ⟨some "Неплохо", some "8/10", some "05.03.2023", some "eve"⟩

/-- Witness for C9: a block with unparsable rating text `"8/10"` but a
valid date still yields a row, with `None` in the rating field alone —
the fields degrade independently. -/
theorem collector_malformed_fields_degrade_witness :
    (extractReview "123" malformedBlock).rating = none ∧
    (extractReview "123" malformedBlock).review_date = some ⟨5, 3, 2023⟩ ∧
    extractReview "123" malformedBlock ∈
      [malformedBlock].map (extractReview "123") := by
  obtain ⟨h1, -, h3⟩ := collector_malformed_fields_degrade "123"
    malformedBlock [malformedBlock] (by decide)
  exact ⟨h1 "8/10" (by decide) (by decide), by decide, h3⟩

/-- Counterexample to C7 as stated: a review block whose rating text is
`"11"` makes the collector emit the rating 11, which is outside
[0, 10] — `float(...)` is applied with no range check. -/
theorem collector_rating_counterexample :
    (scrape_reviews_for_movie "https://x/film/123/"
        (onePageListing overratedBlock) 3).map Row.rating = [some 11] ∧
    ¬ ((11 : ℚ) ≤ 10) := by
  constructor
  · decide
  · norm_num

/-- C7 (amended).  A non-null rating emitted by the collector is
exactly the float parsed from the block's rating text; no range check
is applied, so the rating lies in [0, 10] exactly when the parsed text
value does. -/
theorem collector_rating_passthrough (mid : String) (b : ReviewBlock)
    (t : String) (x : ℚ) (h1 : b.ratingEl = some t)
    (h2 : (extractReview mid b).rating = some x) :
    parseFloat (stripStr t) = some x := by
  simpa [extractReview, h1] using h2

/-- Witness for C7: the block with rating text `"11"` emits rating 11,
which the theorem traces back to `float("11")`. -/
theorem collector_rating_passthrough_witness :
    parseFloat (stripStr "11") = some 11 :=
  collector_rating_passthrough "123" overratedBlock "11" 11
    (by decide) (by decide)

/-! ## Sentiment and correlation theorems -/

lemma vaderNormalize_abs_le (y : ℝ) : |vaderNormalize y| ≤ 1 := by
  rw [vaderNormalize, abs_div, abs_of_nonneg (Real.sqrt_nonneg _)]
  rcases eq_or_ne (Real.sqrt (y ^ 2 + 15)) 0 with h | h
  · simp [h]
  · rw [div_le_one (lt_of_le_of_ne (Real.sqrt_nonneg _) (Ne.symm h))]
    calc |y| = Real.sqrt (y ^ 2) := (Real.sqrt_sq_eq_abs y).symm
    _ ≤ Real.sqrt (y ^ 2 + 15) := Real.sqrt_le_sqrt (by linarith)

/-- C5.  Whenever `get_sentiment_score` returns a non-null value, that
value lies in [-1, 1], for every lexicon and every input text: the
VADER compound normalization `x / sqrt(x^2 + 15)` is bounded. -/
theorem sentiment_score_in_range (valence : String → ℝ) (t : Option String)
    (x : ℝ) (h : get_sentiment_score valence t = some x) :
    -1 ≤ x ∧ x ≤ 1 := by
  rcases t with _ | s
  · exact absurd h (by rw [get_sentiment_score]; exact fun hc => Option.noConfusion hc)
  · rw [get_sentiment_score] at h
    by_cases hb : s.toList.all Char.isWhitespace
    · rw [if_pos hb] at h
      exact absurd h (fun hc => Option.noConfusion hc)
    · rw [if_neg hb] at h
      have hx := Option.some.inj h
      subst hx
      exact abs_le.mp (vaderNormalize_abs_le _)

/-- Witness for C5: a zero lexicon on the text `"кино"` yields a
non-null score, which lies in [-1, 1]. -/
theorem sentiment_score_in_range_witness :
    get_sentiment_score (fun _ => 0) (some "кино") =
      some (vaderCompound (fun _ => 0) "кино") ∧
    -1 ≤ vaderCompound (fun _ => 0) "кино" ∧
    vaderCompound (fun _ => 0) "кино" ≤ 1 :=
  ⟨rfl, sentiment_score_in_range (fun _ => 0) (some "кино") _ rfl⟩

/-- A review whose text is non-blank but consists only of digit tokens,
so that preprocessing leaves nothing. -/
def digitsOnlyRow : Row := ⟨"m7", some "10/10", none, none, "zoe"⟩

/-- C10.  `get_sentiment_score` returns `None` exactly on a missing,
empty, or whitespace-only text; and a row can survive cleaning with
non-blank `review_text` while its `clean_text` is empty (every token a
digit run, stopword, or shorter than 3 characters), leaving a null
sentiment score. -/
theorem sentiment_none_iff_blank (valence : String → ℝ) (t : Option String) :
    (get_sentiment_score valence t = none ↔ isBlankText t = true) ∧
    isBlankText digitsOnlyRow.review_text = false ∧
    clean [digitsOnlyRow] = [digitsOnlyRow] ∧
    preprocess_text "10/10" = "" ∧
    get_sentiment_score valence (some (preprocess_text "10/10")) = none := by
  refine ⟨?_, by decide, by decide, by decide, ?_⟩
  · rcases t with _ | s
    · simp [get_sentiment_score, isBlankText]
    · by_cases hb : s.toList.all Char.isWhitespace
      · simp [get_sentiment_score, isBlankText, hb]
      · simp [get_sentiment_score, isBlankText, hb]
  · have : preprocess_text "10/10" = "" := by decide
    rw [this]
    rfl

/-- Witness for C10 at a concrete lexicon and missing text. -/
theorem sentiment_none_iff_blank_witness :
    (get_sentiment_score (fun _ => 0) none = none ↔
      isBlankText none = true) ∧
    isBlankText digitsOnlyRow.review_text = false ∧
    clean [digitsOnlyRow] = [digitsOnlyRow] ∧
    preprocess_text "10/10" = "" ∧
    get_sentiment_score (fun _ => 0) (some (preprocess_text "10/10")) = none :=
  sentiment_none_iff_blank (fun _ => 0) none

/-- Cauchy-Schwarz for lists of pairs of reals. -/
lemma list_inner_sq_le (ps : List (ℝ × ℝ)) :
    ((ps.map fun p => p.1 * p.2).sum) ^ 2 ≤
      ((ps.map fun p => p.1 ^ 2).sum) * ((ps.map fun p => p.2 ^ 2).sum) := by
  induction ps with
  | nil => simp
  | cons a l ih =>
    have hX : 0 ≤ (l.map fun p => p.1 ^ 2).sum :=
      List.sum_nonneg (by rintro x hx; rcases List.mem_map.mp hx with ⟨p, -, rfl⟩; positivity)
    have hY : 0 ≤ (l.map fun p => p.2 ^ 2).sum :=
      List.sum_nonneg (by rintro x hx; rcases List.mem_map.mp hx with ⟨p, -, rfl⟩; positivity)
    simp only [List.map_cons, List.sum_cons]
    rcases eq_or_lt_of_le hY with hY0 | hYpos
    · have hS : (l.map fun p => p.1 * p.2).sum = 0 := by
        nlinarith [sq_nonneg ((l.map fun p => p.1 * p.2).sum), ih, hX]
      rw [hS, ← hY0]
      nlinarith [hX, sq_nonneg a.2, sq_nonneg (a.1 * a.2)]
    · nlinarith [ih, hX, hY,
        sq_nonneg (a.1 * (l.map fun p => p.2 ^ 2).sum -
          a.2 * (l.map fun p => p.1 * p.2).sum),
        mul_nonneg (sq_nonneg a.2)
          (sub_nonneg.mpr ih),
        mul_nonneg (le_of_lt hYpos) (sub_nonneg.mpr ih)]

lemma sxy_sq_le (ps : List (ℝ × ℝ)) : sxy ps ^ 2 ≤ sxx ps * syy ps := by
  have h := list_inner_sq_le (ps.map fun p => (p.1 - meanFst ps, p.2 - meanSnd ps))
  simpa [sxy, sxx, syy, List.map_map, Function.comp] using h

/-- C6.  The Pearson coefficient computed from the rows where both the
rating and the sentiment score are non-null lies in [-1, 1] (when the
denominator vanishes the quotient is the junk value 0, also in range). -/
theorem corr_value_in_range (rows : List (Option ℝ × Option ℝ)) :
    -1 ≤ corrValue rows ∧ corrValue rows ≤ 1 := by
  set ps := rows.filterMap (fun p =>
    match p with
    | (some a, some b) => some (a, b)
    | _ => none) with hps
  have : corrValue rows = pearson ps := rfl
  rw [this]
  refine abs_le.mp ?_
  rw [pearson, abs_div, abs_of_nonneg (Real.sqrt_nonneg _)]
  rcases eq_or_ne (Real.sqrt (sxx ps * syy ps)) 0 with h | h
  · simp [h]
  · rw [div_le_one (lt_of_le_of_ne (Real.sqrt_nonneg _) (Ne.symm h))]
    calc |sxy ps| = Real.sqrt (sxy ps ^ 2) := (Real.sqrt_sq_eq_abs _).symm
    _ ≤ Real.sqrt (sxx ps * syy ps) := Real.sqrt_le_sqrt (sxy_sq_le ps)

/-- Witness for C6 on a concrete two-row table. -/
theorem corr_value_in_range_witness :
    -1 ≤ corrValue [(some 8, some 1), (some 3, some 0), (none, some 1)] ∧
    corrValue [(some 8, some 1), (some 3, some 0), (none, some 1)] ≤ 1 :=
  corr_value_in_range [(some 8, some 1), (some 3, some 0), (none, some 1)]

/-! ## Tokenizer lemmas -/

lemma joinSp_pair (t t' : List Char) (ts : List (List Char)) :
    joinSp (t :: t' :: ts) = t ++ ' ' :: joinSp (t' :: ts) := rfl

lemma joinSp_single (t : List Char) : joinSp [t] = t := rfl

lemma charLower_idem (c : Char) : charLower (charLower c) = charLower c := by
  have hvk : ∀ p ∈ lowerPairs, lowerPairs.find? (fun q => q.1 == p.2) = none := by
    decide
  cases hf : lowerPairs.find? (fun p => p.1 == c) with
  | none =>
    have h1 : charLower c = c := by rw [charLower, hf]
    rw [h1]
    exact h1
  | some p =>
    have h1 : charLower c = p.2 := by rw [charLower, hf]
    rw [h1, charLower, hvk p (List.mem_of_find?_eq_some hf)]

lemma charLower_space : charLower ' ' = ' ' := rfl

lemma punctChar_of_word_or_ws (c : Char)
    (h : isWordChar c = true ∨ c.isWhitespace = true) : punctChar c = c := by
  rw [punctChar, if_neg]
  rcases h with h | h <;> simp [h]

lemma tokensAux_ne_nil :
    ∀ (l acc : List Char), ∀ t ∈ tokensAux acc l, t ≠ []
  | [], acc => by
    by_cases h : acc = [] <;> simp [tokensAux, h]
  | c :: cs, acc => by
    intro t ht
    rw [tokensAux] at ht
    by_cases hw : c.isWhitespace
    · rw [if_pos hw] at ht
      by_cases ha : acc = []
      · rw [if_pos ha] at ht
        exact tokensAux_ne_nil cs [] t ht
      · rw [if_neg ha] at ht
        rcases List.mem_cons.mp ht with h | h
        · exact h ▸ ha
        · exact tokensAux_ne_nil cs [] t h
    · rw [if_neg hw] at ht
      exact tokensAux_ne_nil cs (acc ++ [c]) t ht

lemma tokensAux_chars :
    ∀ (l acc : List Char), ∀ t ∈ tokensAux acc l, ∀ c ∈ t,
      c ∈ acc ∨ (c ∈ l ∧ c.isWhitespace = false)
  | [], acc => by
    by_cases h : acc = [] <;> simp_all [tokensAux]
  | b :: cs, acc => by
    intro t ht c hc
    rw [tokensAux] at ht
    by_cases hw : b.isWhitespace
    · rw [if_pos hw] at ht
      by_cases ha : acc = []
      · rw [if_pos ha] at ht
        rcases tokensAux_chars cs [] t ht c hc with h | ⟨h1, h2⟩
        · exact absurd h (List.not_mem_nil c)
        · exact Or.inr ⟨List.mem_cons_of_mem _ h1, h2⟩
      · rw [if_neg ha] at ht
        rcases List.mem_cons.mp ht with h | h
        · exact Or.inl (h ▸ hc)
        · rcases tokensAux_chars cs [] t h c hc with h' | ⟨h1, h2⟩
          · exact absurd h' (List.not_mem_nil c)
          · exact Or.inr ⟨List.mem_cons_of_mem _ h1, h2⟩
    · rw [if_neg hw] at ht
      rcases tokensAux_chars cs (acc ++ [b]) t ht c hc with h | ⟨h1, h2⟩
      · rcases List.mem_append.mp h with h' | h'
        · exact Or.inl h'
        · have hb : c = b := by simpa using h'
          subst hb
          exact Or.inr ⟨List.mem_cons_self _ _, by simpa using hw⟩
      · exact Or.inr ⟨List.mem_cons_of_mem _ h1, h2⟩

lemma tokensAux_append :
    ∀ (w acc rest : List Char), (∀ c ∈ w, c.isWhitespace = false) →
      tokensAux acc (w ++ rest) = tokensAux (acc ++ w) rest
  | [], acc, rest, _ => by simp
  | c :: cs, acc, rest, h => by
    have hc : c.isWhitespace = false := h c (List.mem_cons_self _ _)
    rw [List.cons_append, tokensAux, if_neg (by simp [hc]),
      tokensAux_append cs (acc ++ [c]) rest
        (fun d hd => h d (List.mem_cons_of_mem _ hd))]
    simp

lemma tokensL_joinSp :
    ∀ (ts : List (List Char)),
      (∀ t ∈ ts, t ≠ [] ∧ ∀ c ∈ t, c.isWhitespace = false) →
      tokensL (joinSp ts) = ts
  | [], _ => rfl
  | [t], h => by
    obtain ⟨hne, hws⟩ := h t (List.mem_cons_self _ _)
    rw [joinSp_single, tokensL, show t = t ++ [] by simp,
      tokensAux_append t [] [] hws]
    simp [tokensAux, hne]
  | t :: t' :: ts, h => by
    obtain ⟨hne, hws⟩ := h t (List.mem_cons_self _ _)
    rw [joinSp_pair, tokensL,
      tokensAux_append t [] (' ' :: joinSp (t' :: ts)) hws]
    rw [List.nil_append, tokensAux, if_pos (by decide), if_neg hne]
    rw [show tokensAux [] (joinSp (t' :: ts)) = tokensL (joinSp (t' :: ts)) from rfl,
      tokensL_joinSp (t' :: ts) (fun u hu => h u (List.mem_cons_of_mem _ hu))]

lemma digitSubAux_chars :
    ∀ (l : List Char) (b : Bool), ∀ x ∈ digitSubAux b l,
      x = ' ' ∨ (x ∈ l ∧ x.isDigit = false)
  | [], b => by simp [digitSubAux]
  | c :: cs, b => by
    intro x hx
    rw [digitSubAux] at hx
    by_cases hd : c.isDigit
    · rw [if_pos hd] at hx
      by_cases hb : b
      · rw [if_pos hb] at hx
        rcases digitSubAux_chars cs true x hx with h | ⟨h1, h2⟩
        · exact Or.inl h
        · exact Or.inr ⟨List.mem_cons_of_mem _ h1, h2⟩
      · rw [if_neg hb] at hx
        rcases List.mem_cons.mp hx with h | h
        · exact Or.inl h
        · rcases digitSubAux_chars cs true x h with h' | ⟨h1, h2⟩
          · exact Or.inl h'
          · exact Or.inr ⟨List.mem_cons_of_mem _ h1, h2⟩
    · rw [if_neg hd] at hx
      rcases List.mem_cons.mp hx with h | h
      · subst h
        exact Or.inr ⟨List.mem_cons_self _ _, by simpa using hd⟩
      · rcases digitSubAux_chars cs false x h with h' | ⟨h1, h2⟩
        · exact Or.inl h'
        · exact Or.inr ⟨List.mem_cons_of_mem _ h1, h2⟩

lemma digitSubAux_id :
    ∀ (l : List Char) (b : Bool), (∀ c ∈ l, c.isDigit = false) →
      digitSubAux b l = l
  | [], _, _ => rfl
  | c :: cs, b, h => by
    rw [digitSubAux, if_neg (by simp [h c (List.mem_cons_self _ _)]),
      digitSubAux_id cs false (fun d hd => h d (List.mem_cons_of_mem _ hd))]

lemma joinSp_chars :
    ∀ (ts : List (List Char)), ∀ c ∈ joinSp ts,
      (∃ t ∈ ts, c ∈ t) ∨ c = ' '
  | [] => by simp [joinSp]
  | [t] => by
    intro c hc
    exact Or.inl ⟨t, List.mem_cons_self _ _, hc⟩
  | t :: t' :: ts => by
    intro c hc
    rw [joinSp_pair] at hc
    rcases List.mem_append.mp hc with h | h
    · exact Or.inl ⟨t, List.mem_cons_self _ _, h⟩
    · rcases List.mem_cons.mp h with h' | h'
      · exact Or.inr h'
      · rcases joinSp_chars (t' :: ts) c h' with ⟨u, hu, hcu⟩ | h''
        · exact Or.inl ⟨u, List.mem_cons_of_mem _ hu, hcu⟩
        · exact Or.inr h''

/-- Non-whitespace characters of the string handed to the tokenizer are
lowercase-stable non-digit word characters. -/
lemma token_char_good (l : List Char) (x : Char)
    (hx : x ∈ digitSub ((l.map charLower).map punctChar))
    (hw : x.isWhitespace = false) :
    charLower x = x ∧ isWordChar x = true ∧ x.isDigit = false := by
  rcases digitSubAux_chars _ false x hx with h | ⟨h1, h2⟩
  · subst h
    exact absurd hw (by simp)
  · rcases List.mem_map.mp h1 with ⟨y, hy, hxy⟩
    rcases List.mem_map.mp hy with ⟨c, -, hyc⟩
    by_cases hcase : !isWordChar y && !y.isWhitespace
    · rw [punctChar, if_pos hcase] at hxy
      exact absurd hw (by simp [← hxy])
    · have hxy' : y = x := by rw [punctChar, if_neg hcase] at hxy; exact hxy
      have hws_y : y.isWhitespace = false := hxy' ▸ hw
      have hword : isWordChar y = true := by
        cases hb : isWordChar y
        · exact absurd (by simp [hb, hws_y]) hcase
        · rfl
      refine ⟨?_, hxy' ▸ hword, h2⟩
      rw [← hxy', ← hyc, charLower_idem]

/-- Tokens kept by the filter inside `preprocess_text` are nonempty,
pass the filter, and consist of lowercase-stable non-digit word
characters. -/
lemma kept_good (l : List Char) :
    ∀ t ∈ (tokensL (digitSub ((l.map charLower).map punctChar))).filter keepTok,
      t ≠ [] ∧ keepTok t = true ∧
      ∀ c ∈ t, c.isWhitespace = false ∧ charLower c = c ∧
        isWordChar c = true ∧ c.isDigit = false := by
  intro t ht
  have hmem := List.mem_filter.mp ht
  refine ⟨tokensAux_ne_nil _ [] t hmem.1, hmem.2, ?_⟩
  intro c hc
  rcases tokensAux_chars _ [] t hmem.1 c hc with h | ⟨h1, h2⟩
  · exact absurd h (List.not_mem_nil c)
  · obtain ⟨hl, hw, hd⟩ := token_char_good l c h1 h2
    exact ⟨h2, hl, hw, hd⟩

/-- Characters of a preprocessed text are lowercase-stable non-digits,
each a word character or a space. -/
lemma preprocessL_chars (l : List Char) :
    ∀ c ∈ preprocessL l,
      charLower c = c ∧ (isWordChar c = true ∨ c.isWhitespace = true) ∧
      c.isDigit = false := by
  intro c hc
  rw [preprocessL] at hc
  rcases joinSp_chars _ c hc with ⟨t, ht, hct⟩ | hsp
  · obtain ⟨-, -, hchars⟩ := kept_good l t ht
    obtain ⟨hws, hl, hw, hd⟩ := hchars c hct
    exact ⟨hl, Or.inl hw, hd⟩
  · subst hsp
    exact ⟨charLower_space, Or.inr (by decide), by decide⟩

/-- Re-tokenizing a preprocessed text recovers exactly the kept
tokens. -/
lemma tokensL_preprocessL (l : List Char) :
    tokensL (preprocessL l) =
      (tokensL (digitSub ((l.map charLower).map punctChar))).filter keepTok := by
  rw [preprocessL]
  exact tokensL_joinSp _ (fun t ht => ⟨(kept_good l t ht).1,
    fun c hc => ((kept_good l t ht).2.2 c hc).1⟩)

/-- C3.  `preprocess_text` is idempotent: its output is already
lowercase, punctuation-free and digit-free, its tokens all pass the
stopword and length filters, so a second run returns it unchanged. -/
theorem preprocess_text_idempotent (s : String) :
    preprocess_text (preprocess_text s) = preprocess_text s := by
  suffices h : preprocessL (preprocessL s.toList) = preprocessL s.toList by
    rw [preprocess_text, preprocess_text]
    exact congrArg String.mk h
  set l := s.toList with hl
  set out := preprocessL l with hout
  have hchars := preprocessL_chars l
  rw [← hout] at hchars
  have h1 : out.map charLower = out := by
    rw [List.map_congr_left
      (fun c hc => show charLower c = id c from (hchars c hc).1), List.map_id]
  have h2 : out.map punctChar = out := by
    rw [List.map_congr_left (fun c hc =>
      show punctChar c = id c from punctChar_of_word_or_ws c (hchars c hc).2.1),
      List.map_id]
  have h3 : digitSub out = out :=
    digitSubAux_id out false (fun c hc => (hchars c hc).2.2)
  have h4 : tokensL out =
      (tokensL (digitSub ((l.map charLower).map punctChar))).filter keepTok := by
    rw [hout]
    exact tokensL_preprocessL l
  have h5 : ((tokensL (digitSub ((l.map charLower).map punctChar))).filter
      keepTok).filter keepTok =
      (tokensL (digitSub ((l.map charLower).map punctChar))).filter keepTok :=
    List.filter_eq_self.mpr (fun t ht => (kept_good l t ht).2.1)
  rw [preprocessL, h1, h2, h3, h4, h5, hout, preprocessL]

/-- Witness for C3 at the spec's concrete example text. -/
theorem preprocess_text_idempotent_witness :
    preprocess_text (preprocess_text "Отличный фильм! 10/10") =
      preprocess_text "Отличный фильм! 10/10" :=
  preprocess_text_idempotent "Отличный фильм! 10/10"

/-- C4.  Every token of a preprocessed text has length at least 3 and
is not a Russian stopword; on the spec's example the output drops
`"10"` and keeps only the two long words, lowercased. -/
theorem clean_text_token_filter :
    (∀ (s tok : String), tok ∈ tokenize (preprocess_text s) →
      3 ≤ tok.length ∧ tok ∉ russianStopwords) ∧
    preprocess_text "Отличный фильм! 10/10" = "отличный фильм" := by
  refine ⟨?_, by decide⟩
  intro s tok htok
  rw [tokenize, show (preprocess_text s).toList = preprocessL s.toList from rfl,
    tokensL_preprocessL] at htok
  rcases List.mem_map.mp htok with ⟨t, ht, rfl⟩
  have hg := kept_good s.toList t ht
  have hkt := hg.2.1
  rw [keepTok] at hkt
  constructor
  · have hlen : (String.mk t).length = t.length := rfl
    have : 2 < t.length := by
      rcases Bool.and_eq_true_iff.mp hkt with ⟨-, h2⟩
      simpa using h2
    omega
  · intro hmem
    have htl : t ∈ russianStopL := by
      rw [russianStopL]
      exact List.mem_map.mpr ⟨String.mk t, hmem, rfl⟩
    have hcon : russianStopL.contains t = true := by simpa using htl
    rcases Bool.and_eq_true_iff.mp hkt with ⟨h1, -⟩
    rw [hcon] at h1
    exact Bool.noConfusion h1

/-- Witness for C4: the token `"отличный"` of the example output has
length 8 and is not a stopword. -/
theorem clean_text_token_filter_witness :
    3 ≤ ("отличный" : String).length ∧
    ("отличный" : String) ∉ russianStopwords :=
  clean_text_token_filter.1 "Отличный фильм! 10/10" "отличный" (by decide)
